import Mathlib

/-!
Verification of the session-orchestration and ingestion subsystem of the
code-compass workers (workers/vectorize.ts, workers/agent.ts,
workers/durable-object.ts, workers/router.ts, workers/types.ts).

The TypeScript code is shallowly embedded: TypeScript strings are lists of
characters (`Str`), machine numbers are `Nat`/`Int`, fallible external calls
(hosted inference, embedding, transcription, the vector index query) are
explicit `Except`/`Option` inputs of the embedded functions, and stateful
handlers take and return the stored session value explicitly.  All
definitions are executable so that concrete runs evaluate by `decide`/`rfl`.
-/

set_option maxHeartbeats 1000000
set_option maxRecDepth 16384

namespace CodeCompass

/-- TypeScript strings are embedded as lists of characters. -/
abbrev Str := List Char

/-- Convert a Lean string literal into the embedded string type. -/
def strToL (s : String) : Str := s.data

/-- Embedding of JavaScript `s.split(sep)` for a one-character separator:
`"a\nb".split("\n") = ["a","b"]`, `"".split("\n") = [""]`. -/
def splitOnChar (sep : Char) : Str → List Str
  | [] => [[]]
  | c :: rest =>
    match splitOnChar sep rest with
    | [] => [[]]
    | g :: gs => if c = sep then [] :: g :: gs else (c :: g) :: gs

/-- Embedding of `String.prototype.trim`: strip leading and trailing whitespace. -/
def trimChars (s : Str) : Str :=
  ((s.dropWhile Char.isWhitespace).reverse.dropWhile Char.isWhitespace).reverse

/-- Embedding of `Array.prototype.join(sep)` for a one-character separator. -/
def joinSep (sep : Char) (ls : List Str) : Str :=
  match ls with
  | [] => []
  | l :: rest => l ++ (rest.map fun r => sep :: r).flatten

/-- Join lines with a newline, as the chunker accumulates them. -/
def joinNl (ls : List Str) : Str := joinSep (Char.ofNat 10) ls

/-- State of the accumulation loop of `chunkText` (workers/vectorize.ts):
the chunks pushed so far and the chunk under construction. -/
structure ChunkState where
  chunks : List Str
  currentChunk : Str

/-- One iteration of the `for (const line of lines)` loop of `chunkText`:
if adding the line would exceed the cap, push the trimmed current chunk
(when non-empty) and restart from the line; otherwise append the line,
separated by a newline when the current chunk is non-empty. -/
def chunkStep (maxChunkSize : Nat) (st : ChunkState) (line : Str) : ChunkState :=
  if st.currentChunk.length + line.length > maxChunkSize then
    { chunks := if st.currentChunk.isEmpty then st.chunks else st.chunks ++ [trimChars st.currentChunk]
      currentChunk := line }
  else
    { chunks := st.chunks
      currentChunk := st.currentChunk ++ (if st.currentChunk.isEmpty then line else Char.ofNat 10 :: line) }

/-- Body of `chunkText` after the newline split: fold the loop over the lines,
push the trailing chunk when non-empty, and drop empty chunks. -/
def chunkLines (lines : List Str) (maxChunkSize : Nat) : List Str :=
  let st := lines.foldl (chunkStep maxChunkSize) ⟨[], []⟩
  let chunks := if st.currentChunk.isEmpty then st.chunks else st.chunks ++ [trimChars st.currentChunk]
  chunks.filter fun c => decide (0 < c.length)

/-- Embedding of `chunkText(text, maxChunkSize = 1000)` from workers/vectorize.ts. -/
def chunkText (text : Str) (maxChunkSize : Nat) : List Str :=
  chunkLines (splitOnChar (Char.ofNat 10) text) maxChunkSize

/-- Single input line of 1001 identical characters, used to exercise the chunker
beyond its size cap. -/
def longLine : Str := List.replicate 1001 'a'

/-- The chunk the loop is building equals the newline join of the pending lines
after dropping leading empty lines (leading empty lines add no separator). -/
def curOf (pend : List Str) : Str := joinNl (pend.dropWhile fun l => l.isEmpty)

/-- One entry of the recursive GitHub tree listing consumed by `ingestRepository`. -/
structure TreeItem where
  type : Str
  path : Str
deriving DecidableEq

/-- The fixed allow-list of text-like extensions in `ingestRepository`. -/
def allowedExtensions : List Str :=
  [strToL "js", strToL "ts", strToL "tsx", strToL "jsx", strToL "py", strToL "java",
   strToL "go", strToL "rs", strToL "cpp", strToL "c", strToL "md", strToL "txt"]

/-- Extension filter of `ingestRepository`:
`item.path.split(".").pop()?.toLowerCase()` must be in the allow-list. -/
def hasAllowedExtension (path : Str) : Bool :=
  decide ((((splitOnChar (Char.ofNat 46) path).getLast?.getD []).map Char.toLower)
    ∈ allowedExtensions)

/-- The filtered source-file list of `ingestRepository`: blobs with an allowed
extension, capped at `maxFiles` (`MAX_REPO_FILES`, default 50) by `.slice(0, maxFiles)`. -/
def filterSourceFiles (tree : List TreeItem) (maxFiles : Nat) : List TreeItem :=
  (((tree.filter fun i => decide (i.type = strToL "blob")).filter
      fun i => hasAllowedExtension i.path).take maxFiles)

/-- Result shape of `ingestRepository`: the files of the processed slice stand in for
the per-file fetch/chunk/embed work, whose outcome the pagination contract does not
depend on. -/
structure IngestResult where
  sliceFiles : List TreeItem
  hasMore : Bool
  nextIndex : Nat
deriving DecidableEq

/-- Slicing core of `ingestRepository` (workers/vectorize.ts): take
`allSourceFiles.slice(startIndex, startIndex + batchSize)`, set
`hasMore = startIndex + batchSize < allSourceFiles.length`, and short-circuit with
`hasMore = false, nextIndex = startIndex` when the slice is empty, else
`nextIndex = startIndex + batchSize`. -/
def ingestSlice (allSourceFiles : List TreeItem) (startIndex batchSize : Nat) : IngestResult :=
  let sourceFiles := (allSourceFiles.drop startIndex).take batchSize
  let hasMore := decide (startIndex + batchSize < allSourceFiles.length)
  if sourceFiles.isEmpty then
    { sliceFiles := [], hasMore := false, nextIndex := startIndex }
  else
    { sliceFiles := sourceFiles, hasMore := hasMore, nextIndex := startIndex + batchSize }

/-- Embedding of `ingestRepository(repoUrl, env, startIndex, batchSize)`: fetch the
tree (an input here), filter and cap it, then process one slice. -/
def ingestRepository (tree : List TreeItem) (maxFiles startIndex batchSize : Nat) : IngestResult :=
  ingestSlice (filterSourceFiles tree maxFiles) startIndex batchSize

/-- The caller loop from router.ts `/api/analyze`: call `ingestRepository` starting at 0
and continue from each `nextIndex` while `hasMore`, collecting the visited files.
`fuel` bounds the iteration count (the loop itself runs until `hasMore` is false). -/
def ingestRun (tree : List TreeItem) (maxFiles batchSize : Nat) : Nat → Nat → List TreeItem
  | 0, _ => []
  | fuel + 1, startIndex =>
    let r := ingestRepository tree maxFiles startIndex batchSize
    if r.hasMore then r.sliceFiles ++ ingestRun tree maxFiles batchSize fuel r.nextIndex
    else r.sliceFiles

/-- A blob tree item with a `.ts` path, for concrete ingestion runs. -/
def tsFile (n : Nat) : TreeItem :=
  { type := strToL "blob", path := strToL "f" ++ Nat.toDigits 10 n ++ strToL ".ts" }

/-- A concrete four-file repository tree. -/
def demoTree : List TreeItem := [tsFile 0, tsFile 1, tsFile 2, tsFile 3]

/-- A source file as fetched by the ingestion pipeline. -/
structure SourceFile where
  path : Str
  content : Str
  language : Str
deriving DecidableEq

/-- VectorRecord id from `storeFileEmbeddings`: the template
`repoName + ":" + file.path + ":" + chunkIndex`. -/
def vectorId (repoName filePath : Str) (chunkIndex : Nat) : Str :=
  repoName ++ Char.ofNat 58 :: filePath ++ Char.ofNat 58 :: Nat.toDigits 10 chunkIndex

/-- A record written to the vector index by `storeFileEmbeddings`. -/
structure VectorEntry where
  id : Str
  values : List Int
  filePath : Str
  chunkIndex : Nat
  totalChunks : Nat
  contentPreview : Str
deriving DecidableEq

/-- The vectors `storeFileEmbeddings` builds for one file: chunk its content with the
default 1000-character cap, embed every chunk (the hosted embedder is an explicit
input), and attach the deterministic id plus chunk metadata. -/
def fileVectors (embed : Str → List Int) (repoName : Str) (f : SourceFile) : List VectorEntry :=
  let chunks := chunkText f.content 1000
  chunks.enum.map fun ic =>
    { id := vectorId repoName f.path ic.1
      values := embed ic.2
      filePath := f.path
      chunkIndex := ic.1
      totalChunks := chunks.length
      contentPreview := ic.2.take 200 }

/-- All vectors produced by one ingestion of the files of one repository. -/
def repoVectors (embed : Str → List Int) (repoName : Str) (files : List SourceFile) :
    List VectorEntry :=
  (files.map (fileVectors embed repoName)).flatten

/-- Modelled vector-index upsert for a single record, per the index contract the code
relies on (spec section 3): a record whose id is already present overwrites that record
in place, otherwise it is appended. -/
def upsertOne (index : List VectorEntry) (v : VectorEntry) : List VectorEntry :=
  if index.any fun e => decide (e.id = v.id) then
    index.map fun e => if e.id = v.id then v else e
  else
    index ++ [v]

/-- Modelled batched upsert (`env.VECTORIZE_INDEX.upsert(vectors)`). -/
def upsertAll (index : List VectorEntry) (vs : List VectorEntry) : List VectorEntry :=
  vs.foldl upsertOne index

/-- A conversation message (workers/types.ts `ChatMessage`; the optional audio and
reasoning-step attachments are not needed by any claim). -/
structure ChatMessage where
  role : Str
  content : Str
  timestamp : Nat
deriving DecidableEq

/-- Stored session state (workers/types.ts `SessionState`).  The payloads of the cached
analysis, quiz session and study plan are irrelevant to the claims and kept as plain
strings behind an `Option`. -/
structure SessionState where
  id : Str
  repoUrl : Str
  goal : Str
  analysis : Option Str
  messages : List ChatMessage
  quizSession : Option Str
  studyPlan : Option Str
  userStruggles : List Str
  createdAt : Nat
  lastActivityAt : Nat
deriving DecidableEq

/-- Outcome vocabulary for `/init`.  The code only ever produces `success`;
`alreadyExists` is the failure mode the spec prescribes for a duplicate init. -/
inductive InitOutcome
  | success
  | alreadyExists
deriving DecidableEq

/-- Request body of `/init`. -/
structure InitBody where
  sessionId : Str
  repoUrl : Str
  goal : Str
deriving DecidableEq

/-- The fresh session `handleInit` builds. -/
def freshSession (b : InitBody) (now : Nat) : SessionState :=
  { id := b.sessionId, repoUrl := b.repoUrl, goal := b.goal, analysis := none,
    messages := [], quizSession := none, studyPlan := none, userStruggles := [],
    createdAt := now, lastActivityAt := now }

/-- Embedding of `SessionDurableObject.handleInit`: it reads nothing from storage and
unconditionally puts a fresh session, answering success.  The first component is the
session value persisted in the durable storage after the call. -/
def handleInit (stored : Option SessionState) (b : InitBody) (now : Nat) :
    Option SessionState × InitOutcome :=
  (some (freshSession b now), InitOutcome.success)

/-- Outcome vocabulary for `/update`. -/
inductive UpdateOutcome
  | success
  | notFound
deriving DecidableEq

/-- A `Partial<SessionState>` update body: `some` marks a field present in the JSON. -/
structure SessionUpdate where
  id : Option Str
  repoUrl : Option Str
  goal : Option Str
  analysis : Option Str
  messages : Option (List ChatMessage)
  quizSession : Option Str
  studyPlan : Option Str
  userStruggles : Option (List Str)
  createdAt : Option Nat
  lastActivityAt : Option Nat
deriving DecidableEq

/-- The update body with no fields present. -/
def emptyUpdate : SessionUpdate :=
  { id := none, repoUrl := none, goal := none, analysis := none, messages := none,
    quizSession := none, studyPlan := none, userStruggles := none, createdAt := none,
    lastActivityAt := none }

/-- Embedding of the spread `{...session, ...updates, lastActivityAt: Date.now()}` in
`SessionDurableObject.handleUpdate`: every field present in the update replaces the
stored field wholesale, and `lastActivityAt` is then refreshed regardless. -/
def applyUpdate (s : SessionState) (u : SessionUpdate) (now : Nat) : SessionState :=
  { id := u.id.getD s.id
    repoUrl := u.repoUrl.getD s.repoUrl
    goal := u.goal.getD s.goal
    analysis := match u.analysis with | some a => some a | none => s.analysis
    messages := u.messages.getD s.messages
    quizSession := match u.quizSession with | some q => some q | none => s.quizSession
    studyPlan := match u.studyPlan with | some p => some p | none => s.studyPlan
    userStruggles := u.userStruggles.getD s.userStruggles
    createdAt := u.createdAt.getD s.createdAt
    lastActivityAt := now }

/-- Embedding of `SessionDurableObject.handleUpdate`: 404 when no session is stored,
else merge and persist. -/
def handleUpdate (stored : Option SessionState) (u : SessionUpdate) (now : Nat) :
    Option SessionState × UpdateOutcome :=
  match stored with
  | none => (none, UpdateOutcome.notFound)
  | some s => (some (applyUpdate s u now), UpdateOutcome.success)

/-- The update body `/api/chat` (router.ts) posts after a turn: only `messages`,
holding just the latest user/assistant pair. -/
def chatUpdateBody (userText : Str) (agentResponse : ChatMessage) (now : Nat) : SessionUpdate :=
  { emptyUpdate with
      messages := some [{ role := strToL "user", content := userText, timestamp := now },
                        agentResponse] }

/-- Events sent over the realtime WebSocket channel (server to client). -/
inductive WsEvent
  | connected (sessionId : Str)
  | status (message : Str)
  | reasoningStep (kind : Str) (toolName : Str)
  | transcription (text : Str)
  | textResponse (message : Str) (timestamp : Nat)
  | errorEvent (message : Str)
  | pong
deriving DecidableEq

/-- The apologetic content `runAgentWorkflow` returns when the hosted model call throws:
`"I encountered an error processing your request: " + msg + ". Please try again."`. -/
def apologyContent (errMsg : Str) : Str :=
  strToL "I encountered an error processing your request: " ++ errMsg ++
    strToL ". Please try again."

/-- Embedding of `runAgentWorkflow` (workers/vectorize.ts agent revision): the hosted
tool-augmented completion is an explicit input; on success the reply content is
returned as an assistant message, and the catch block converts a failure into the
apologetic assistant message instead of propagating. -/
def runAgentWorkflow (llm : Except Str Str) (now : Nat) : ChatMessage :=
  match llm with
  | Except.ok content => { role := strToL "assistant", content := content, timestamp := now }
  | Except.error e => { role := strToL "assistant", content := apologyContent e, timestamp := now }

/-- Lower-case conversion, `String.prototype.toLowerCase` on ASCII. -/
def toLowerStr (s : Str) : Str := s.map Char.toLower

/-- Bool-valued check that `needle` starts `hay` (`String.prototype.startsWith`). -/
def startsWithStr : Str → Str → Bool
  | _, [] => true
  | [], _ :: _ => false
  | c :: cs, d :: ds => decide (c = d) && startsWithStr cs ds

/-- Bool-valued substring check (`String.prototype.includes`). -/
def strContains (hay needle : Str) : Bool :=
  (List.range (hay.length + 1)).any fun i => startsWithStr (hay.drop i) needle

/-- The struggle-indicator phrases of `handleTextInput`. -/
def struggleIndicators : List Str :=
  [strToL "don" ++ Char.ofNat 39 :: strToL "t know", strToL "confused", strToL "unclear",
   strToL "help", strToL "stuck"]

/-- The struggle-detection heuristic in `handleTextInput`, applied after both messages
were pushed: when the lower-cased message contains an indicator, take the last five
messages, join their contents with spaces, keep words longer than six characters, and
append the first such word to the struggle list if it is new. -/
def applyStruggleHeuristic (session : SessionState) (message : Str) : SessionState :=
  if struggleIndicators.any fun ind => strContains (toLowerStr message) ind then
    let recent := session.messages.drop (session.messages.length - 5)
    let context := joinSep (Char.ofNat 32) (recent.map ChatMessage.content)
    let words := (splitOnChar (Char.ofNat 32) context).filter fun w => decide (6 < w.length)
    match words with
    | [] => session
    | w :: _ =>
      if w ∈ session.userStruggles then session
      else { session with userStruggles := session.userStruggles ++ [w] }
  else session

/-- Embedding of `SessionDurableObject.handleTextInput`: with no stored session an
error event is sent; otherwise the user message is pushed, the agent workflow runs
(its hosted call an explicit input), the assistant message is pushed,
`lastActivityAt` refreshed, the struggle heuristic applied, the session persisted,
and a single `text_response` event emitted after the initial `status` event.  The
first component is the session persisted by `storage.put`. -/
def handleTextInput (stored : Option SessionState) (message : Str) (llm : Except Str Str)
    (now : Nat) : Option SessionState × List WsEvent :=
  match stored with
  | none => (none, [WsEvent.errorEvent (strToL "Session not found")])
  | some session =>
    let userMessage : ChatMessage := { role := strToL "user", content := message, timestamp := now }
    let agentResponse := runAgentWorkflow llm now
    let afterPush : SessionState :=
      { session with messages := session.messages ++ [userMessage, agentResponse],
                     lastActivityAt := now }
    let final := applyStruggleHeuristic afterPush message
    (some final,
     [WsEvent.status (strToL "Thinking..."),
      WsEvent.textResponse agentResponse.content agentResponse.timestamp])

/-- Embedding of `SessionDurableObject.handleVoiceInput`: a `status` event is sent,
the base64 audio is decoded and transcribed (the transcription call is an explicit
input); a thrown transcription error, or an empty transcription (which raises
`No transcription returned`), is caught and emitted as an `error` event without
touching the session; otherwise the transcription event is sent and the transcribed
text is handed to `handleTextInput`. -/
def handleVoiceInput (stored : Option SessionState) (transcribe : Except Str Str)
    (llm : Except Str Str) (now : Nat) : Option SessionState × List WsEvent :=
  match transcribe with
  | Except.error e =>
    (stored, [WsEvent.status (strToL "Transcribing voice..."),
              WsEvent.errorEvent (strToL "Failed to process voice input: " ++ e)])
  | Except.ok t =>
    if t.isEmpty then
      (stored, [WsEvent.status (strToL "Transcribing voice..."),
                WsEvent.errorEvent
                  (strToL "Failed to process voice input: No transcription returned")])
    else
      let r := handleTextInput stored t llm now
      (r.1, WsEvent.status (strToL "Transcribing voice...") :: WsEvent.transcription t :: r.2)

/-- A flashcard as produced by the generate_flashcards tool. -/
structure Flashcard where
  front : Str
  back : Str
  concept : Str
  difficulty : Nat
deriving DecidableEq

/-- The parsed shape of the model reply for generate_flashcards.  `JSON.parse` may
yield an object without a `flashcards` key, hence the inner `Option`. -/
structure FlashcardsPayload where
  flashcards : Option (List Flashcard)
deriving DecidableEq

/-- Embedding of the generate_flashcards tool handler (workers/agent.ts): the hosted
model call and the JSON parse of its reply are an explicit input.  `Except.error` is a
thrown model call (UpstreamFailure) and `Except.ok none` a reply that fails to parse
(ParseFailure); both fall back to the empty flashcard list.  A successfully parsed
payload is returned as-is: the handler never checks how many cards it holds. -/
def generateFlashcardsHandler (modelReply : Except Str (Option FlashcardsPayload)) :
    FlashcardsPayload :=
  match modelReply with
  | Except.error _ => { flashcards := some [] }
  | Except.ok none => { flashcards := some [] }
  | Except.ok (some parsed) => parsed

/-- Embedding of `generateFlashcards` (workers/agent.ts): run the tool handler and
return `result.flashcards || []`. -/
def generateFlashcards (modelReply : Except Str (Option FlashcardsPayload)) : List Flashcard :=
  (generateFlashcardsHandler modelReply).flashcards.getD []

/-- A concrete flashcard for counterexamples. -/
def demoCard (n : Nat) : Flashcard :=
  { front := strToL "q", back := strToL "a", concept := strToL "c", difficulty := n }

/-- A match returned by the vector-index nearest-neighbour query, with the metadata
fields `semanticSearch` reads. -/
structure SearchMatch where
  matchId : Str
  score : Int
  filePath : Str
  contentPreview : Str
deriving DecidableEq

/-- One hit in the list `semanticSearch` returns. -/
structure SearchHit where
  filePath : Str
  score : Int
  preview : Str
deriving DecidableEq

/-- Embedding of `semanticSearch` (workers/vectorize.ts): the embed-and-query pipeline
is an explicit input; a thrown upstream error is caught and becomes the empty list,
and otherwise each match is mapped to its metadata-plus-preview hit.  There is no
special case for an empty match list. -/
def semanticSearch (queryOutcome : Except Str (List SearchMatch)) : List SearchHit :=
  match queryOutcome with
  | Except.error _ => []
  | Except.ok ms =>
    ms.map fun mt => { filePath := mt.filePath, score := mt.score, preview := mt.contentPreview }

/-- Embedding of the semantic_search tool handler (workers/vectorize.ts
`semanticSearchTool.handler`): it returns the list from `semanticSearch` unchanged. -/
def semanticSearchToolHandler (queryOutcome : Except Str (List SearchMatch)) : List SearchHit :=
  semanticSearch queryOutcome

/-- Kinds of reasoning steps (workers/types.ts `ReasoningStep.type`):
`tool_call`, `result`, `thinking`. -/
inductive StepKind
  | toolCall
  | result
  | thinking
deriving DecidableEq

/-- A reasoning step streamed during a turn. -/
structure ReasoningStep where
  kind : StepKind
  toolName : Str
  payload : Str
deriving DecidableEq

/-- An event observed during one orchestrated turn: a reasoning step delivered to the
`onReasoningStep` callback, or the final assistant message. -/
inductive TurnEvent
  | step (s : ReasoningStep)
  | finalMessage (content : Str)
deriving DecidableEq

/-- One tool invocation the model elects during a turn: name, arguments, and the
result returned by the handler. -/
structure ToolInvocation where
  name : Str
  args : Str
  output : Str
deriving DecidableEq

/-- Modelled from the spec: the deployed Turn Orchestrator — `runAgentWorkflow` with
the `onReasoningStep` callback that `SessionDurableObject.handleTextInput` passes —
is not present under src/, which only holds that caller and an earlier callback-less
revision of the orchestrator.  Per spec section 4.2 the orchestrator, for each tool
call the model elects, synchronously emits a `tool_call` step, awaits the handler,
synchronously emits the matching `result` step, and repeats; after the loop it
produces the final assistant message.  The trace below is the exact emission order
observed by the callback, followed by the final message. -/
def runTurnTrace (calls : List ToolInvocation) (finalAnswer : Str) : List TurnEvent :=
  (calls.map fun c =>
      [TurnEvent.step { kind := StepKind.toolCall, toolName := c.name, payload := c.args },
       TurnEvent.step { kind := StepKind.result, toolName := c.name, payload := c.output }]).flatten
    ++ [TurnEvent.finalMessage finalAnswer]

/-- A concrete source file for witnesses. -/
def demoSourceFile : SourceFile :=
  { path := strToL "a.ts", content := strToL "abc\ndef", language := strToL "ts" }

/-- A concrete assistant message for witnesses. -/
def demoAssistant : ChatMessage :=
  { role := strToL "assistant", content := strToL "ok", timestamp := 9 }

/-- A concrete tool invocation for witnesses. -/
def demoCall : ToolInvocation :=
  { name := strToL "semantic_search", args := strToL "query", output := strToL "hits" }

/-- Concrete init body for counterexamples. -/
def demoBody : InitBody :=
  { sessionId := strToL "s1", repoUrl := strToL "owner/repo", goal := strToL "learn" }

/-- A live session for the init counterexample: same id, but with history. -/
def demoSession : SessionState :=
  { freshSession demoBody 1 with
      messages := [{ role := strToL "user", content := strToL "hi", timestamp := 2 }] }

theorem joinSep_append_singleton (sep : Char) (xs : List Str) (y : Str) (h : xs ≠ []) :
    joinSep sep (xs ++ [y]) = joinSep sep xs ++ sep :: y := by
  cases xs with
  | nil => exact absurd rfl h
  | cons a t => simp [joinSep, List.map_append, List.flatten_append, List.append_assoc]

theorem joinNl_cons_ne (a : Str) (rest : List Str) (h : a ≠ []) : joinNl (a :: rest) ≠ [] := by
  simp [joinNl, joinSep, h]

theorem dropWhile_head_false {p : Str → Bool} :
    ∀ (l : List Str) (a : Str) (t : List Str), l.dropWhile p = a :: t → p a = false := by
  intro l
  induction l with
  | nil => intro a t h; simp [List.dropWhile] at h
  | cons x xs ih =>
    intro a t h
    by_cases hx : p x
    · rw [List.dropWhile_cons, if_pos hx] at h
      exact ih a t h
    · rw [List.dropWhile_cons, if_neg hx] at h
      cases h
      simpa using hx

theorem curOf_eq_nil_iff (pend : List Str) :
    curOf pend = [] ↔ pend.dropWhile (fun l => l.isEmpty) = [] := by
  unfold curOf joinNl
  cases h : pend.dropWhile (fun l => l.isEmpty) with
  | nil => simp [joinSep]
  | cons a t =>
    have ha : a.isEmpty = false := dropWhile_head_false pend a t h
    have ha' : a ≠ [] := by simpa [List.isEmpty_iff] using ha
    simp [joinSep, ha']

theorem curOf_singleton (line : Str) : curOf [line] = line := by
  by_cases hl : line.isEmpty
  · have : line = [] := by simpa [List.isEmpty_iff] using hl
    subst this
    rfl
  · simp [curOf, List.dropWhile, hl, joinNl, joinSep]

theorem trim_cons_nl (s : Str) : trimChars (Char.ofNat 10 :: s) = trimChars s := by
  have h : (Char.ofNat 10).isWhitespace = true := by decide
  simp [trimChars, List.dropWhile_cons, h]

theorem trim_joinNl_eq_trim_curOf : ∀ pend : List Str,
    trimChars (joinNl pend) = trimChars (curOf pend) := by
  intro pend
  induction pend with
  | nil => rfl
  | cons l ls ih =>
    by_cases hl : l.isEmpty
    · have hl' : l = [] := by simpa [List.isEmpty_iff] using hl
      subst hl'
      have hc : curOf ([] :: ls) = curOf ls := by simp [curOf, List.dropWhile]
      rw [hc, ← ih]
      cases ls with
      | nil => rfl
      | cons r rs =>
        have : joinNl ([] :: r :: rs) = Char.ofNat 10 :: joinNl (r :: rs) := by
          simp [joinNl, joinSep]
        rw [this, trim_cons_nl]
    · have : curOf (l :: ls) = joinNl (l :: ls) := by
        simp [curOf, List.dropWhile_cons, hl]
      rw [this]

theorem curOf_append (pend : List Str) (line : Str) :
    curOf (pend ++ [line]) =
      if (curOf pend).isEmpty then line else curOf pend ++ Char.ofNat 10 :: line := by
  induction pend with
  | nil =>
    rw [List.nil_append, curOf_singleton]
    simp [curOf, joinNl, joinSep]
  | cons l ls ih =>
    by_cases hl : l.isEmpty
    · have h1 : curOf ((l :: ls) ++ [line]) = curOf (ls ++ [line]) := by
        simp [curOf, List.dropWhile_cons, hl]
      have h2 : curOf (l :: ls) = curOf ls := by
        simp [curOf, List.dropWhile_cons, hl]
      rw [h1, h2, ih]
    · have hl' : l ≠ [] := by simpa [List.isEmpty_iff] using hl
      have h1 : curOf ((l :: ls) ++ [line]) = joinNl ((l :: ls) ++ [line]) := by
        simp [curOf, List.dropWhile_cons, hl]
      have h2 : curOf (l :: ls) = joinNl (l :: ls) := by
        simp [curOf, List.dropWhile_cons, hl]
      have h3 : joinNl (l :: ls) ≠ [] := joinNl_cons_ne l ls hl'
      rw [h1, h2, if_neg (by simpa [List.isEmpty_iff] using h3)]
      exact joinSep_append_singleton _ (l :: ls) line (by simp)

theorem chunkFold_structure (m : Nat) :
    ∀ (lines : List Str) (st : ChunkState) (segs : List (List Str)) (pend : List Str),
      st.currentChunk = curOf pend →
      st.chunks.filter (fun c => decide (0 < c.length)) =
        (segs.map fun s => trimChars (joinNl s)).filter (fun c => decide (0 < c.length)) →
      (∀ s ∈ segs, s ≠ []) →
      ∃ (segs2 : List (List Str)) (pend2 : List Str),
        segs2.flatten ++ pend2 = segs.flatten ++ pend ++ lines ∧
        (∀ s ∈ segs2, s ≠ []) ∧
        (List.foldl (chunkStep m) st lines).currentChunk = curOf pend2 ∧
        (List.foldl (chunkStep m) st lines).chunks.filter (fun c => decide (0 < c.length)) =
          (segs2.map fun s => trimChars (joinNl s)).filter (fun c => decide (0 < c.length)) := by
  intro lines
  induction lines with
  | nil =>
    intro st segs pend h1 h2 h3
    refine ⟨segs, pend, ?_, h3, ?_, ?_⟩
    · simp
    · simpa using h1
    · simpa using h2
  | cons line rest ih =>
    intro st segs pend h1 h2 h3
    rw [List.foldl_cons]
    by_cases hover : st.currentChunk.length + line.length > m
    · by_cases hcur : st.currentChunk.isEmpty
      · -- current chunk empty: the push is skipped and the chunk restarts at `line`
        have hstep : chunkStep m st line = ⟨st.chunks, line⟩ := by
          simp [chunkStep, hover, hcur]
        rw [hstep]
        have hpendnil : curOf pend = [] := by
          rw [← h1]; simpa [List.isEmpty_iff] using hcur
        by_cases hp : pend = []
        · subst hp
          obtain ⟨segs2, pend2, g1, g2, g3, g4⟩ :=
            ih ⟨st.chunks, line⟩ segs [line] (curOf_singleton line).symm h2 h3
          refine ⟨segs2, pend2, ?_, g2, g3, g4⟩
          rw [g1]; simp
        · have hfilter : st.chunks.filter (fun c => decide (0 < c.length)) =
              (((segs ++ [pend]).map fun s => trimChars (joinNl s)).filter
                (fun c => decide (0 < c.length))) := by
            have htr : trimChars (joinNl pend) = [] := by
              rw [trim_joinNl_eq_trim_curOf, hpendnil]; rfl
            simpa [List.filter_append, htr] using h2
          have hne2 : ∀ s ∈ segs ++ [pend], s ≠ [] := by
            intro s hs
            rcases List.mem_append.mp hs with hs | hs
            · exact h3 s hs
            · simp at hs; subst hs; exact hp
          obtain ⟨segs2, pend2, g1, g2, g3, g4⟩ :=
            ih ⟨st.chunks, line⟩ (segs ++ [pend]) [line] (curOf_singleton line).symm hfilter hne2
          refine ⟨segs2, pend2, ?_, g2, g3, g4⟩
          rw [g1]; simp [List.flatten_append, List.append_assoc]
      · -- current chunk non-empty: push trimmed chunk, restart at `line`
        have hstep : chunkStep m st line = ⟨st.chunks ++ [trimChars st.currentChunk], line⟩ := by
          simp [chunkStep, hover, hcur]
        rw [hstep]
        have hcur' : st.currentChunk ≠ [] := by simpa [List.isEmpty_iff] using hcur
        have hp : pend ≠ [] := by
          intro hp; apply hcur'
          rw [h1, hp]; rfl
        have hfilter : (st.chunks ++ [trimChars st.currentChunk]).filter
              (fun c => decide (0 < c.length)) =
            (((segs ++ [pend]).map fun s => trimChars (joinNl s)).filter
              (fun c => decide (0 < c.length))) := by
          have htr : trimChars st.currentChunk = trimChars (joinNl pend) := by
            rw [h1, ← trim_joinNl_eq_trim_curOf]
          simp only [List.filter_append, List.map_append]
          rw [h2]
          simp [htr]
        have hne2 : ∀ s ∈ segs ++ [pend], s ≠ [] := by
          intro s hs
          rcases List.mem_append.mp hs with hs | hs
          · exact h3 s hs
          · simp at hs; subst hs; exact hp
        obtain ⟨segs2, pend2, g1, g2, g3, g4⟩ :=
          ih ⟨st.chunks ++ [trimChars st.currentChunk], line⟩ (segs ++ [pend]) [line]
            (curOf_singleton line).symm hfilter hne2
        refine ⟨segs2, pend2, ?_, g2, g3, g4⟩
        rw [g1]; simp [List.flatten_append, List.append_assoc]
    · -- the line still fits: extend the current chunk
      have hstep : chunkStep m st line =
          ⟨st.chunks,
           st.currentChunk ++ (if st.currentChunk.isEmpty then line else Char.ofNat 10 :: line)⟩ := by
        simp [chunkStep, hover]
      rw [hstep]
      have hcurof : st.currentChunk ++ (if st.currentChunk.isEmpty then line else Char.ofNat 10 :: line)
          = curOf (pend ++ [line]) := by
        rw [curOf_append, h1]
        by_cases hc : (curOf pend).isEmpty
        · have hnil : curOf pend = [] := by simpa [List.isEmpty_iff] using hc
          simp [hc, hnil]
        · simp [hc]
      obtain ⟨segs2, pend2, g1, g2, g3, g4⟩ :=
        ih ⟨st.chunks, st.currentChunk ++ (if st.currentChunk.isEmpty then line else Char.ofNat 10 :: line)⟩
          segs (pend ++ [line]) hcurof h2 h3
      refine ⟨segs2, pend2, ?_, g2, g3, g4⟩
      rw [g1]; simp [List.append_assoc]

theorem chunkLines_structure (lines : List Str) (m : Nat) :
    ∃ segs : List (List Str),
      segs.flatten = lines ∧ (∀ s ∈ segs, s ≠ []) ∧
      chunkLines lines m =
        (segs.map fun s => trimChars (joinNl s)).filter (fun c => decide (0 < c.length)) := by
  obtain ⟨segs2, pend2, hflat, hne, hcur, hchunks⟩ :=
    chunkFold_structure m lines ⟨[], []⟩ [] [] rfl rfl (by simp)
  unfold chunkLines
  by_cases hc : (List.foldl (chunkStep m) ⟨[], []⟩ lines).currentChunk.isEmpty
  · by_cases hp : pend2 = []
    · refine ⟨segs2, ?_, hne, ?_⟩
      · simpa [hp] using hflat
      · simp only [hc, if_true]
        exact hchunks
    · refine ⟨segs2 ++ [pend2], ?_, ?_, ?_⟩
      · simp only [List.flatten_append, List.flatten_cons, List.flatten_nil, List.append_nil]
        simpa using hflat
      · intro s hs
        rcases List.mem_append.mp hs with hs | hs
        · exact hne s hs
        · simp at hs; subst hs; exact hp
      · have hpnil : curOf pend2 = [] := by
          rw [← hcur]; simpa [List.isEmpty_iff] using hc
        have htrim : trimChars (joinNl pend2) = [] := by
          rw [trim_joinNl_eq_trim_curOf, hpnil]; rfl
        simp only [hc, if_true]
        simp [List.filter_append, htrim, hchunks]
  · have hcur' : (List.foldl (chunkStep m) ⟨[], []⟩ lines).currentChunk ≠ [] := by
      simpa [List.isEmpty_iff] using hc
    have hp : pend2 ≠ [] := by
      intro hp; apply hcur'; rw [hcur, hp]; rfl
    refine ⟨segs2 ++ [pend2], ?_, ?_, ?_⟩
    · simp only [List.flatten_append, List.flatten_cons, List.flatten_nil, List.append_nil]
      simpa using hflat
    · intro s hs
      rcases List.mem_append.mp hs with hs | hs
      · exact hne s hs
      · simp at hs; subst hs; exact hp
    · have htrim : trimChars (List.foldl (chunkStep m) ⟨[], []⟩ lines).currentChunk
          = trimChars (joinNl pend2) := by
        rw [hcur, ← trim_joinNl_eq_trim_curOf]
      simp only [hc, if_false]
      simp [List.filter_append, hchunks, htrim]

theorem length_dropWhile_le' {α : Type} (p : α → Bool) (l : List α) :
    (l.dropWhile p).length ≤ l.length :=
  ((List.dropWhile_suffix p).sublist).length_le

theorem trim_length_le (s : Str) : (trimChars s).length ≤ s.length := by
  unfold trimChars
  calc ((s.dropWhile Char.isWhitespace).reverse.dropWhile Char.isWhitespace).reverse.length
      = ((s.dropWhile Char.isWhitespace).reverse.dropWhile Char.isWhitespace).length := by
        rw [List.length_reverse]
    _ ≤ (s.dropWhile Char.isWhitespace).reverse.length := length_dropWhile_le' _ _
    _ = (s.dropWhile Char.isWhitespace).length := by rw [List.length_reverse]
    _ ≤ s.length := length_dropWhile_le' _ _

theorem chunkFold_cap (m : Nat) (allLines : List Str) :
    ∀ (lines : List Str) (st : ChunkState),
      (∀ l ∈ lines, l ∈ allLines) →
      (st.currentChunk = [] ∨ st.currentChunk.length ≤ m + 1 ∨ st.currentChunk ∈ allLines) →
      (∀ c ∈ st.chunks, c.length ≤ m + 1 ∨ ∃ l ∈ allLines, c = trimChars l) →
      (∀ c ∈ (List.foldl (chunkStep m) st lines).chunks,
          c.length ≤ m + 1 ∨ ∃ l ∈ allLines, c = trimChars l) ∧
      ((List.foldl (chunkStep m) st lines).currentChunk = [] ∨
       (List.foldl (chunkStep m) st lines).currentChunk.length ≤ m + 1 ∨
       (List.foldl (chunkStep m) st lines).currentChunk ∈ allLines) := by
  intro lines
  induction lines with
  | nil =>
    intro st hmem hcur hchunks
    exact ⟨hchunks, hcur⟩
  | cons line rest ih =>
    intro st hmem hcur hchunks
    rw [List.foldl_cons]
    have hline : line ∈ allLines := hmem line (List.mem_cons_self _ _)
    have hmem' : ∀ l ∈ rest, l ∈ allLines := fun l hl => hmem l (List.mem_cons_of_mem _ hl)
    apply ih (chunkStep m st line) hmem'
    · -- the new current chunk satisfies the cap invariant
      unfold chunkStep
      by_cases hover : st.currentChunk.length + line.length > m
      · simp only [hover, if_pos]
        exact Or.inr (Or.inr hline)
      · simp only [hover, if_neg, not_false_iff]
        by_cases hc : st.currentChunk.isEmpty
        · have : st.currentChunk = [] := by simpa [List.isEmpty_iff] using hc
          simp [hc, this]
          exact Or.inr (Or.inr hline)
        · simp only [hc, if_neg, Bool.not_eq_true]
          refine Or.inr (Or.inl ?_)
          have hfit : st.currentChunk.length + line.length ≤ m := Nat.le_of_not_lt hover
          simp only [List.length_append, List.length_cons]
          omega
    · -- every pushed chunk satisfies the cap bound
      unfold chunkStep
      by_cases hover : st.currentChunk.length + line.length > m
      · simp only [hover, if_pos]
        by_cases hc : st.currentChunk.isEmpty
        · simpa [hc] using hchunks
        · simp only [hc, Bool.false_eq_true, if_neg, not_false_iff]
          intro c hcmem
          rcases List.mem_append.mp hcmem with hcm | hcm
          · exact hchunks c hcm
          · simp at hcm
            subst hcm
            rcases hcur with hcur | hcur | hcur
            · exact absurd hcur (by simpa [List.isEmpty_iff] using hc)
            · exact Or.inl (le_trans (trim_length_le _) hcur)
            · exact Or.inr ⟨st.currentChunk, hcur, rfl⟩
      · simp only [hover, if_neg, not_false_iff]
        exact hchunks

theorem chunkLines_cap (lines : List Str) (m : Nat) :
    ∀ c ∈ chunkLines lines m, c.length ≤ m + 1 ∨ ∃ l ∈ lines, c = trimChars l := by
  obtain ⟨hchunks, hcur⟩ :=
    chunkFold_cap m lines lines ⟨[], []⟩ (fun l hl => hl) (Or.inl rfl) (by simp)
  unfold chunkLines
  intro c hc
  have hc' := List.mem_filter.mp hc
  rcases hc' with ⟨hcmem, -⟩
  by_cases hcc : (List.foldl (chunkStep m) ⟨[], []⟩ lines).currentChunk.isEmpty
  · rw [if_pos hcc] at hcmem
    exact hchunks c hcmem
  · rw [if_neg hcc] at hcmem
    rcases List.mem_append.mp hcmem with hcm | hcm
    · exact hchunks c hcm
    · simp at hcm
      subst hcm
      rcases hcur with hcur | hcur | hcur
      · exact absurd hcur (by simpa [List.isEmpty_iff] using hcc)
      · exact Or.inl (le_trans (trim_length_le _) hcur)
      · exact Or.inr ⟨_, hcur, rfl⟩

/-- C7 (corrected, part 1): the claim "the length of every chunk is under the ~1000-character
size cap" is false.  A single input line of 1001 characters is emitted unchanged as one
chunk of length 1001, exceeding the default cap of 1000 that `storeFileEmbeddings`
passes to `chunkText`; a line can exceed the cap by an arbitrary amount. -/
theorem chunk_cap_counterexample :
    chunkText longLine 1000 = [longLine] ∧ 1000 < longLine.length := by decide

/-- C7 (amended): for every input text, `chunkText` splits the text into line-aligned
segments: there is an ordered partition of the lines of the input into non-empty contiguous
runs such that the chunk list is exactly the whitespace-trimmed newline-join of each run
with whitespace-only chunks dropped; every produced chunk is non-empty; and every chunk
is either within one character of the `maxChunkSize` cap or is the trim of a single
input line longer than the cap (the cap is not enforced for oversized lines, and a
chunk may reach `maxChunkSize + 1` characters). -/
theorem chunk_line_aligned_amended (text : Str) (m : Nat) :
    ∃ segs : List (List Str),
      segs.flatten = splitOnChar (Char.ofNat 10) text ∧
      (∀ s ∈ segs, s ≠ []) ∧
      chunkText text m =
        (segs.map fun s => trimChars (joinNl s)).filter (fun c => decide (0 < c.length)) ∧
      (∀ c ∈ chunkText text m, 0 < c.length) ∧
      (∀ c ∈ chunkText text m,
        c.length ≤ m + 1 ∨ ∃ l ∈ splitOnChar (Char.ofNat 10) text, c = trimChars l) := by
  obtain ⟨segs, h1, h2, h3⟩ := chunkLines_structure (splitOnChar (Char.ofNat 10) text) m
  refine ⟨segs, h1, h2, h3, ?_, ?_⟩
  · intro c hc
    rw [show chunkText text m = chunkLines (splitOnChar (Char.ofNat 10) text) m from rfl, h3] at hc
    have h := (List.mem_filter.mp hc).2
    simpa using h
  · exact chunkLines_cap (splitOnChar (Char.ofNat 10) text) m

/-- C7 witness: the amended theorem instantiated at a concrete two-line text. -/
theorem chunk_line_aligned_amended_witness :
    ∃ segs : List (List Str),
      segs.flatten = splitOnChar (Char.ofNat 10) (strToL "abc\ndef") ∧
      (∀ s ∈ segs, s ≠ []) ∧
      chunkText (strToL "abc\ndef") 1000 =
        (segs.map fun s => trimChars (joinNl s)).filter (fun c => decide (0 < c.length)) ∧
      (∀ c ∈ chunkText (strToL "abc\ndef") 1000, 0 < c.length) ∧
      (∀ c ∈ chunkText (strToL "abc\ndef") 1000,
        c.length ≤ 1000 + 1 ∨ ∃ l ∈ splitOnChar (Char.ofNat 10) (strToL "abc\ndef"), c = trimChars l) :=
  chunk_line_aligned_amended (strToL "abc\ndef") 1000

theorem ingestRun_eq_drop (tree : List TreeItem) (maxFiles b : Nat) (hb : 1 ≤ b) :
    ∀ (fuel startIndex : Nat),
      (filterSourceFiles tree maxFiles).length ≤ startIndex + fuel →
      ingestRun tree maxFiles b fuel startIndex =
        (filterSourceFiles tree maxFiles).drop startIndex := by
  intro fuel
  induction fuel with
  | zero =>
    intro startIndex hle
    rw [ingestRun, List.drop_eq_nil_of_le (by omega)]
  | succ fuel ih =>
    intro startIndex hle
    rw [ingestRun]
    set files := filterSourceFiles tree maxFiles with hfiles
    by_cases hempty : ((files.drop startIndex).take b).isEmpty
    · have hdrop : files.drop startIndex = [] := by
        rcases hd : files.drop startIndex with _ | ⟨x, xs⟩
        · rfl
        · rw [hd] at hempty
          cases b with
          | zero => omega
          | succ b' => simp [List.take] at hempty
      have hstep : ingestRepository tree maxFiles startIndex b =
          { sliceFiles := [], hasMore := false, nextIndex := startIndex } := by
        rw [ingestRepository, ingestSlice, ← hfiles]
        simp [hempty]
      simp [hstep, hdrop]
    · have hne : (files.drop startIndex).take b ≠ [] := by
        simpa [List.isEmpty_iff] using hempty
      have hstep : ingestRepository tree maxFiles startIndex b =
          { sliceFiles := (files.drop startIndex).take b,
            hasMore := decide (startIndex + b < files.length),
            nextIndex := startIndex + b } := by
        rw [ingestRepository, ingestSlice, ← hfiles]
        simp [hempty]
      rw [hstep]
      by_cases hmore : startIndex + b < files.length
      · simp only [hmore, decide_eq_true_eq, if_pos]
        rw [ih (startIndex + b) (by omega)]
        rw [show files.drop (startIndex + b) = (files.drop startIndex).drop b by
          rw [List.drop_drop, Nat.add_comm]]
        exact List.take_append_drop b (files.drop startIndex)
      · simp only [hmore, decide_eq_true_eq, if_neg, not_false_iff]
        have hlen : (files.drop startIndex).length ≤ b := by
          rw [List.length_drop]; omega
        simp [List.take_of_length_le hlen]

/-- C1 (corrected, counterexample): on the final partial batch `nextIndex` is NOT the
end of the slice.  With 4 filtered source files, `startIndex = 3` and `batchSize = 3`, the
slice holds the single last file (ending at index 4), yet the code returns
`nextIndex = startIndex + batchSize = 6`, past the end of the file list. -/
theorem ingest_nextIndex_counterexample :
    (ingestRepository demoTree 50 3 3).nextIndex = 6 ∧
    (filterSourceFiles demoTree 50).length = 4 ∧
    3 + ((ingestRepository demoTree 50 3 3).sliceFiles).length = 4 := by decide

/-- C1 (amended): for every repository tree and every call with `batchSize ≥ 1`,
`hasMore` is true iff `startIndex + batchSize` is still short of the filtered
source-file count; the processed slice is exactly
`filtered.slice(startIndex, startIndex + batchSize)`; `nextIndex` equals
`startIndex + batchSize` whenever the slice is non-empty (which can exceed the actual end of the slice on the final partial batch) and `startIndex` when it is empty; and the
caller loop that starts at 0 and passes each `nextIndex` back in until `hasMore` is
false visits every filtered source file exactly once, in order. -/
theorem ingest_pagination_amended (tree : List TreeItem) (maxFiles startIndex b : Nat)
    (hb : 1 ≤ b) :
    ((ingestRepository tree maxFiles startIndex b).hasMore =
      decide (startIndex + b < (filterSourceFiles tree maxFiles).length)) ∧
    ((ingestRepository tree maxFiles startIndex b).sliceFiles =
      ((filterSourceFiles tree maxFiles).drop startIndex).take b) ∧
    ((ingestRepository tree maxFiles startIndex b).sliceFiles ≠ [] →
      (ingestRepository tree maxFiles startIndex b).nextIndex = startIndex + b) ∧
    ((ingestRepository tree maxFiles startIndex b).sliceFiles = [] →
      (ingestRepository tree maxFiles startIndex b).nextIndex = startIndex) ∧
    ingestRun tree maxFiles b ((filterSourceFiles tree maxFiles).length + 1) 0 =
      filterSourceFiles tree maxFiles := by
  set files := filterSourceFiles tree maxFiles with hfiles
  have hrun : ingestRun tree maxFiles b (files.length + 1) 0 = files := by
    rw [ingestRun_eq_drop tree maxFiles b hb (files.length + 1) 0 (by rw [← hfiles]; omega)]
    exact List.drop_zero files
  by_cases hempty : ((files.drop startIndex).take b).isEmpty
  · have hdrop : files.drop startIndex = [] := by
      rcases hd : files.drop startIndex with _ | ⟨x, xs⟩
      · rfl
      · rw [hd] at hempty
        cases b with
        | zero => omega
        | succ b' => simp [List.take] at hempty
    have hlen : files.length ≤ startIndex := by
      have := List.drop_eq_nil_iff.mp hdrop
      omega
    have hstep : ingestRepository tree maxFiles startIndex b =
        { sliceFiles := [], hasMore := false, nextIndex := startIndex } := by
      rw [ingestRepository, ingestSlice, ← hfiles]
      simp [hempty]
    refine ⟨?_, ?_, ?_, ?_, hrun⟩
    · rw [hstep]
      have : ¬ (startIndex + b < files.length) := by omega
      simp [this]
    · rw [hstep, hdrop]
      simp
    · rw [hstep]
      intro h
      exact absurd rfl h
    · rw [hstep]
      intro h
      rfl
  · have hstep : ingestRepository tree maxFiles startIndex b =
        { sliceFiles := (files.drop startIndex).take b,
          hasMore := decide (startIndex + b < files.length),
          nextIndex := startIndex + b } := by
      rw [ingestRepository, ingestSlice, ← hfiles]
      simp [hempty]
    refine ⟨?_, ?_, ?_, ?_, hrun⟩
    · rw [hstep]
    · rw [hstep]
    · rw [hstep]
      intro h
      rfl
    · rw [hstep]
      intro h
      exact absurd h (by simpa [List.isEmpty_iff] using hempty)

/-- C1 witness: the amended pagination contract at the concrete four-file tree with
batch size 3, starting at index 0. -/
theorem ingest_pagination_amended_witness :
    ((ingestRepository demoTree 50 0 3).hasMore =
      decide (0 + 3 < (filterSourceFiles demoTree 50).length)) ∧
    ((ingestRepository demoTree 50 0 3).sliceFiles =
      ((filterSourceFiles demoTree 50).drop 0).take 3) ∧
    ((ingestRepository demoTree 50 0 3).sliceFiles ≠ [] →
      (ingestRepository demoTree 50 0 3).nextIndex = 0 + 3) ∧
    ((ingestRepository demoTree 50 0 3).sliceFiles = [] →
      (ingestRepository demoTree 50 0 3).nextIndex = 0) ∧
    ingestRun demoTree 50 3 ((filterSourceFiles demoTree 50).length + 1) 0 =
      filterSourceFiles demoTree 50 :=
  ingest_pagination_amended demoTree 50 0 3 (by decide)

theorem upsertAll_cons (index : List VectorEntry) (v : VectorEntry) (t : List VectorEntry) :
    upsertAll index (v :: t) = upsertAll (upsertOne index v) t := rfl

theorem map_id_replace (v : VectorEntry) : ∀ index : List VectorEntry,
    (index.map fun e => if e.id = v.id then v else e).map VectorEntry.id =
      index.map VectorEntry.id := by
  intro index
  induction index with
  | nil => rfl
  | cons e t ih =>
    simp only [List.map_cons, ih]
    by_cases he : e.id = v.id
    · simp [he]
    · simp [he]

theorem upsertOne_of_mem (index : List VectorEntry) (v : VectorEntry)
    (h : v.id ∈ index.map VectorEntry.id) :
    (upsertOne index v).map VectorEntry.id = index.map VectorEntry.id ∧
    (upsertOne index v).length = index.length := by
  obtain ⟨e, he, heq⟩ := List.mem_map.mp h
  have hany : (index.any fun e => decide (e.id = v.id)) = true :=
    List.any_eq_true.mpr ⟨e, he, by simp [heq]⟩
  rw [upsertOne, if_pos hany]
  exact ⟨map_id_replace v index, List.length_map _ _⟩

theorem ids_grow (index : List VectorEntry) (v : VectorEntry) :
    index.map VectorEntry.id ⊆ (upsertOne index v).map VectorEntry.id ∧
    v.id ∈ (upsertOne index v).map VectorEntry.id := by
  by_cases hany : (index.any fun e => decide (e.id = v.id)) = true
  · rw [upsertOne, if_pos hany, map_id_replace]
    obtain ⟨e, he, heq⟩ := List.any_eq_true.mp hany
    refine ⟨fun x hx => hx, ?_⟩
    have : e.id = v.id := by simpa using heq
    exact this ▸ List.mem_map_of_mem VectorEntry.id he
  · rw [upsertOne, if_neg hany]
    constructor
    · intro x hx
      rw [List.map_append]
      exact List.mem_append_left _ hx
    · rw [List.map_append]
      exact List.mem_append_right _ (by simp)

theorem ids_subset_upsertAll : ∀ (vs index : List VectorEntry),
    index.map VectorEntry.id ⊆ (upsertAll index vs).map VectorEntry.id := by
  intro vs
  induction vs with
  | nil => intro index x hx; exact hx
  | cons v t ih =>
    intro index x hx
    exact ih (upsertOne index v) ((ids_grow index v).1 hx)

theorem mem_ids_upsertAll : ∀ (vs index : List VectorEntry) (v : VectorEntry),
    v ∈ vs → v.id ∈ (upsertAll index vs).map VectorEntry.id := by
  intro vs
  induction vs with
  | nil => intro index v hv; cases hv
  | cons w t ih =>
    intro index v hv
    rcases List.mem_cons.mp hv with hv | hv
    · subst hv
      exact ids_subset_upsertAll t (upsertOne index v) ((ids_grow index v).2)
    · exact ih (upsertOne index w) v hv

theorem upsertAll_stable : ∀ (vs index : List VectorEntry),
    (∀ v ∈ vs, v.id ∈ index.map VectorEntry.id) →
    (upsertAll index vs).map VectorEntry.id = index.map VectorEntry.id ∧
    (upsertAll index vs).length = index.length := by
  intro vs
  induction vs with
  | nil => intro index _; exact ⟨rfl, rfl⟩
  | cons v t ih =>
    intro index hmem
    have hv : v.id ∈ index.map VectorEntry.id := hmem v (List.mem_cons_self _ _)
    obtain ⟨hids, hlen⟩ := upsertOne_of_mem index v hv
    have ht : ∀ w ∈ t, w.id ∈ (upsertOne index v).map VectorEntry.id := by
      intro w hw
      rw [hids]
      exact hmem w (List.mem_cons_of_mem _ hw)
    obtain ⟨hids2, hlen2⟩ := ih (upsertOne index v) ht
    refine ⟨?_, ?_⟩
    · rw [upsertAll_cons, hids2, hids]
    · rw [upsertAll_cons, hlen2, hlen]

theorem fileVectors_ids (embed : Str → List Int) (repoName : Str) (f : SourceFile) :
    (fileVectors embed repoName f).map VectorEntry.id =
      (chunkText f.content 1000).enum.map fun ic => vectorId repoName f.path ic.1 := by
  simp [fileVectors, List.map_map, Function.comp]

/-- C4: VectorRecord id determinism and ingestion idempotence.  The ids produced by
ingesting a repository are the same whatever the hosted embedder returns (they are a
function of repository, path and chunk index only), so a second ingestion of the same
content produces the same id set; upserting it again overwrites: the length and the id set of the index do not change, i.e. nothing is duplicated. -/
theorem vector_id_deterministic_upsert (repoName : Str) (files : List SourceFile)
    (embed1 embed2 : Str → List Int) (index : List VectorEntry) :
    ((repoVectors embed1 repoName files).map VectorEntry.id =
      (repoVectors embed2 repoName files).map VectorEntry.id) ∧
    ((upsertAll (upsertAll index (repoVectors embed1 repoName files))
        (repoVectors embed2 repoName files)).length =
      (upsertAll index (repoVectors embed1 repoName files)).length) ∧
    ((upsertAll (upsertAll index (repoVectors embed1 repoName files))
        (repoVectors embed2 repoName files)).map VectorEntry.id =
      (upsertAll index (repoVectors embed1 repoName files)).map VectorEntry.id) := by
  have hids : (repoVectors embed1 repoName files).map VectorEntry.id =
      (repoVectors embed2 repoName files).map VectorEntry.id := by
    unfold repoVectors
    rw [List.map_flatten, List.map_flatten, List.map_map, List.map_map]
    congr 1
    apply List.map_congr_left
    intro f _
    simp only [Function.comp]
    rw [fileVectors_ids, fileVectors_ids]
  have hmem : ∀ v ∈ repoVectors embed2 repoName files,
      v.id ∈ (upsertAll index (repoVectors embed1 repoName files)).map VectorEntry.id := by
    intro v hv
    have h2 : v.id ∈ (repoVectors embed2 repoName files).map VectorEntry.id :=
      List.mem_map_of_mem VectorEntry.id hv
    rw [← hids] at h2
    obtain ⟨w, hw, hwid⟩ := List.mem_map.mp h2
    exact hwid ▸ mem_ids_upsertAll (repoVectors embed1 repoName files) index w hw
  obtain ⟨ha, hb⟩ := upsertAll_stable (repoVectors embed2 repoName files)
    (upsertAll index (repoVectors embed1 repoName files)) hmem
  exact ⟨hids, hb, ha⟩

/-- C2 (corrected, counterexample): an id that already holds a live session.  Calling
`handleInit` against it succeeds (it does not fail with AlreadyExists) and replaces the
stored session with a fresh one, discarding the existing conversation. -/
theorem init_overwrites_counterexample :
    (handleInit (some demoSession) demoBody 7).2 = InitOutcome.success ∧
    (handleInit (some demoSession) demoBody 7).2 ≠ InitOutcome.alreadyExists ∧
    (handleInit (some demoSession) demoBody 7).1 = some (freshSession demoBody 7) ∧
    (handleInit (some demoSession) demoBody 7).1 ≠ some demoSession := by decide

/-- C2 (amended): `handleInit` never inspects the stored state: for every stored value
(present or absent) it persists a fresh session for the given body and answers success.
Creation for an absent id holds; the AlreadyExists failure for a present id does not —
the existing session is silently overwritten. -/
theorem init_unconditional_create (stored : Option SessionState) (b : InitBody) (now : Nat) :
    handleInit stored b now = (some (freshSession b now), InitOutcome.success) := rfl

/-- C10: the session update is a shallow merge.  Every field present in the update
replaces the stored field wholesale (shown for the list-valued `messages` and
`userStruggles` and for `goal`), `lastActivityAt` is refreshed, and consequently the
non-streaming `/api/chat` endpoint update — whose body carries only the latest
user/assistant pair — overwrites the whole conversation history with that pair while
leaving every other field of the stored session unchanged. -/
theorem session_update_shallow_merge (s : SessionState) (u : SessionUpdate) (now : Nat)
    (userText : Str) (agentResponse : ChatMessage) :
    (applyUpdate s u now).messages = u.messages.getD s.messages ∧
    (applyUpdate s u now).userStruggles = u.userStruggles.getD s.userStruggles ∧
    (applyUpdate s u now).goal = u.goal.getD s.goal ∧
    (applyUpdate s u now).lastActivityAt = now ∧
    handleUpdate (some s) (chatUpdateBody userText agentResponse now) now =
      (some { s with
                messages := [{ role := strToL "user", content := userText, timestamp := now },
                             agentResponse],
                lastActivityAt := now },
       UpdateOutcome.success) :=
  ⟨rfl, rfl, rfl, rfl, rfl⟩

theorem applyStruggleHeuristic_preserves (s : SessionState) (m : Str) :
    (applyStruggleHeuristic s m).messages = s.messages ∧
    (applyStruggleHeuristic s m).lastActivityAt = s.lastActivityAt := by
  unfold applyStruggleHeuristic
  split
  · dsimp only
    split
    · exact ⟨rfl, rfl⟩
    · split
      · exact ⟨rfl, rfl⟩
      · exact ⟨rfl, rfl⟩
  · exact ⟨rfl, rfl⟩

/-- C5: turn-level inference-failure atomicity.  For every stored session and user
utterance, when the hosted model call fails the turn still emits exactly one
user-facing assistant `text_response` (the apologetic message) and no error event, and
the persisted session state has the user message and that assistant message appended
with `lastActivityAt` refreshed — the session remains usable. -/
theorem inference_failure_turn_atomicity (s : SessionState) (message errMsg : Str) (now : Nat) :
    (handleTextInput (some s) message (Except.error errMsg) now).2 =
      [WsEvent.status (strToL "Thinking..."),
       WsEvent.textResponse (apologyContent errMsg) now] ∧
    (∃ s2 : SessionState,
      (handleTextInput (some s) message (Except.error errMsg) now).1 = some s2 ∧
      s2.messages = s.messages ++
        [{ role := strToL "user", content := message, timestamp := now },
         { role := strToL "assistant", content := apologyContent errMsg, timestamp := now }] ∧
      s2.lastActivityAt = now) := by
  refine ⟨rfl, ?_⟩
  refine ⟨_, rfl, ?_, ?_⟩
  · exact (applyStruggleHeuristic_preserves _ _).1
  · exact (applyStruggleHeuristic_preserves _ _).2

/-- C9: transcription failure surfaces as an error.  For every voice event whose audio
transcribes to empty text, or whose transcription call throws, the handler emits an
`error` event, never a `text_response` (and no transcription event either), and leaves
the stored session untouched — the turn is not continued with empty text. -/
theorem voice_transcription_failure_errors (stored : Option SessionState)
    (llm : Except Str Str) (now : Nat) (tr : Except Str Str)
    (h : tr = Except.ok [] ∨ ∃ e, tr = Except.error e) :
    (∃ msg, WsEvent.errorEvent msg ∈ (handleVoiceInput stored tr llm now).2) ∧
    (∀ msg ts, WsEvent.textResponse msg ts ∉ (handleVoiceInput stored tr llm now).2) ∧
    (handleVoiceInput stored tr llm now).1 = stored := by
  rcases h with h | ⟨e, h⟩
  · subst h
    refine ⟨⟨strToL "Failed to process voice input: No transcription returned", ?_⟩, ?_, rfl⟩
    · simp [handleVoiceInput]
    · intro msg ts
      simp [handleVoiceInput]
  · subst h
    refine ⟨⟨strToL "Failed to process voice input: " ++ e, ?_⟩, ?_, rfl⟩
    · simp [handleVoiceInput]
    · intro msg ts
      simp [handleVoiceInput]

/-- C9 witness: the failure theorem at a concrete empty transcription. -/
theorem voice_transcription_failure_errors_witness :
    (∃ msg, WsEvent.errorEvent msg ∈ (handleVoiceInput none (Except.ok []) (Except.ok []) 0).2) ∧
    (∀ msg ts, WsEvent.textResponse msg ts ∉ (handleVoiceInput none (Except.ok []) (Except.ok []) 0).2) ∧
    (handleVoiceInput none (Except.ok []) (Except.ok []) 0).1 = none :=
  voice_transcription_failure_errors none (Except.ok []) 0 (Except.ok []) (Or.inl rfl)

/-- C6 (corrected, counterexample): an invocation whose model reply parses to three
flashcards.  The handler returns those three cards unchanged — neither exactly 5 nor
the empty fallback — because the code never checks the parsed count. -/
theorem flashcards_count_counterexample :
    ¬ (((generateFlashcards
          (Except.ok (some { flashcards := some [demoCard 1, demoCard 2, demoCard 3] }))).length = 5) ∨
       ((generateFlashcards
          (Except.ok (some { flashcards := some [demoCard 1, demoCard 2, demoCard 3] }))).length = 0)) := by
  decide

/-- C6 (amended): the generator asks the model for exactly 5 cards but enforces
nothing: an upstream failure, an unparseable reply, or a parsed object without a
`flashcards` key all yield the documented empty-list fallback, and a parsed reply is
passed through verbatim, whatever its cardinality. -/
theorem flashcards_fallback_passthrough (cards : List Flashcard) (e : Str) :
    generateFlashcards (Except.error e) = [] ∧
    generateFlashcards (Except.ok none) = [] ∧
    generateFlashcards (Except.ok (some { flashcards := none })) = [] ∧
    generateFlashcards (Except.ok (some { flashcards := some cards })) = cards :=
  ⟨rfl, rfl, rfl, rfl⟩

/-- C8 (corrected, counterexample): a query whose nearest-neighbour lookup yields no
matches.  The tool handler returns the empty hit list — an empty structure, which the
orchestrator wrapper stringifies — not a descriptive "not found" string: no such
string exists anywhere in the search path. -/
theorem search_empty_returns_list_counterexample :
    semanticSearchToolHandler (Except.ok []) = ([] : List SearchHit) := rfl

/-- C8 (amended): an empty match set maps to the empty hit list, an upstream failure
is caught into the empty hit list as well, and a non-empty match set yields one hit
per match; the search path never produces a descriptive string. -/
theorem search_empty_amended (ms : List SearchMatch) (e : Str) :
    semanticSearch (Except.error e) = [] ∧
    (semanticSearch (Except.ok ms)).length = ms.length ∧
    semanticSearchToolHandler (Except.ok []) = [] :=
  ⟨rfl, by simp [semanticSearch], rfl⟩

theorem runTurnTrace_cons (c : ToolInvocation) (t : List ToolInvocation) (ans : Str) :
    runTurnTrace (c :: t) ans =
      TurnEvent.step { kind := StepKind.toolCall, toolName := c.name, payload := c.args } ::
      TurnEvent.step { kind := StepKind.result, toolName := c.name, payload := c.output } ::
      runTurnTrace t ans := by
  simp [runTurnTrace]

/-- C3: Turn Orchestrator reasoning-step ordering.  For every turn, the trace observed
by `onReasoningStep` has length `2·(number of tool calls) + 1`; for the `i`-th tool call the `tool_call` step sits at position `2i`, strictly before its matching `result` step at
position `2i + 1`; the final assistant message is the last event, after all reasoning
steps; and every event before it is a reasoning step.  Steps are delivered in exactly
this emission order. -/
theorem turn_reasoning_ordering (calls : List ToolInvocation) (ans : Str) :
    (runTurnTrace calls ans).length = 2 * calls.length + 1 ∧
    (∀ i (h : i < calls.length),
      (runTurnTrace calls ans).get? (2 * i) =
        some (TurnEvent.step { kind := StepKind.toolCall, toolName := (calls.get ⟨i, h⟩).name,
                               payload := (calls.get ⟨i, h⟩).args }) ∧
      (runTurnTrace calls ans).get? (2 * i + 1) =
        some (TurnEvent.step { kind := StepKind.result, toolName := (calls.get ⟨i, h⟩).name,
                               payload := (calls.get ⟨i, h⟩).output })) ∧
    (runTurnTrace calls ans).get? (2 * calls.length) = some (TurnEvent.finalMessage ans) ∧
    (∀ j, j < 2 * calls.length → ∃ st, (runTurnTrace calls ans).get? j = some (TurnEvent.step st)) := by
  induction calls with
  | nil =>
    refine ⟨rfl, ?_, rfl, ?_⟩
    · intro i h
      exact absurd h (by simp)
    · intro j hj
      exact absurd hj (by simp)
  | cons c t ih =>
    obtain ⟨ihlen, ihget, ihfin, ihstep⟩ := ih
    rw [runTurnTrace_cons]
    refine ⟨?_, ?_, ?_, ?_⟩
    · simp only [List.length_cons, ihlen, List.length_cons]
      omega
    · intro i h
      cases i with
      | zero => exact ⟨rfl, rfl⟩
      | succ i =>
        have h2 : 2 * (i + 1) = 2 * i + 1 + 1 := by omega
        rw [h2]
        simp only [List.get?_cons_succ, List.get_cons_succ]
        exact ihget i (by simpa using h)
    · have h2 : 2 * (c :: t).length = 2 * t.length + 1 + 1 := by
        simp [List.length_cons]; omega
      rw [h2, List.get?_cons_succ, List.get?_cons_succ]
      exact ihfin
    · intro j hj
      cases j with
      | zero => exact ⟨_, rfl⟩
      | succ j =>
        cases j with
        | zero => exact ⟨_, rfl⟩
        | succ j =>
          rw [List.get?_cons_succ, List.get?_cons_succ]
          refine ihstep j ?_
          simp [List.length_cons] at hj
          omega

/-- C3 witness: the ordering theorem at a one-call turn, showing the `tool_call` step
at position 0 strictly before its `result` step at position 1. -/
theorem turn_reasoning_ordering_witness :
    (runTurnTrace [demoCall] (strToL "done")).get? (2 * 0) =
      some (TurnEvent.step { kind := StepKind.toolCall,
                             toolName := ([demoCall].get ⟨0, by decide⟩).name,
                             payload := ([demoCall].get ⟨0, by decide⟩).args }) ∧
    (runTurnTrace [demoCall] (strToL "done")).get? (2 * 0 + 1) =
      some (TurnEvent.step { kind := StepKind.result,
                             toolName := ([demoCall].get ⟨0, by decide⟩).name,
                             payload := ([demoCall].get ⟨0, by decide⟩).output }) :=
  (turn_reasoning_ordering [demoCall] (strToL "done")).2.1 0 (by decide)

/-- C2 witness: the amended init behaviour at a concrete stored session. -/
theorem init_unconditional_create_witness :
    handleInit (some demoSession) demoBody 7 =
      (some (freshSession demoBody 7), InitOutcome.success) :=
  init_unconditional_create (some demoSession) demoBody 7

/-- C4 witness: id determinism and upsert idempotence at a concrete one-file
repository with two embedders that disagree on every chunk. -/
theorem vector_id_deterministic_upsert_witness :
    ((repoVectors (fun _ => [0]) (strToL "o/r") [demoSourceFile]).map VectorEntry.id =
      (repoVectors (fun _ => [1]) (strToL "o/r") [demoSourceFile]).map VectorEntry.id) ∧
    ((upsertAll (upsertAll [] (repoVectors (fun _ => [0]) (strToL "o/r") [demoSourceFile]))
        (repoVectors (fun _ => [1]) (strToL "o/r") [demoSourceFile])).length =
      (upsertAll [] (repoVectors (fun _ => [0]) (strToL "o/r") [demoSourceFile])).length) ∧
    ((upsertAll (upsertAll [] (repoVectors (fun _ => [0]) (strToL "o/r") [demoSourceFile]))
        (repoVectors (fun _ => [1]) (strToL "o/r") [demoSourceFile])).map VectorEntry.id =
      (upsertAll [] (repoVectors (fun _ => [0]) (strToL "o/r") [demoSourceFile])).map VectorEntry.id) :=
  vector_id_deterministic_upsert (strToL "o/r") [demoSourceFile] (fun _ => [0]) (fun _ => [1]) []

/-- C5 witness: the inference-failure theorem at a concrete session and utterance. -/
theorem inference_failure_turn_atomicity_witness :
    (handleTextInput (some demoSession) (strToL "why") (Except.error (strToL "boom")) 9).2 =
      [WsEvent.status (strToL "Thinking..."),
       WsEvent.textResponse (apologyContent (strToL "boom")) 9] ∧
    (∃ s2 : SessionState,
      (handleTextInput (some demoSession) (strToL "why") (Except.error (strToL "boom")) 9).1 =
        some s2 ∧
      s2.messages = demoSession.messages ++
        [{ role := strToL "user", content := strToL "why", timestamp := 9 },
         { role := strToL "assistant", content := apologyContent (strToL "boom"), timestamp := 9 }] ∧
      s2.lastActivityAt = 9) :=
  inference_failure_turn_atomicity demoSession (strToL "why") (strToL "boom") 9

/-- C6 witness: the fallback/passthrough theorem at a concrete one-card list. -/
theorem flashcards_fallback_passthrough_witness :
    generateFlashcards (Except.error (strToL "boom")) = [] ∧
    generateFlashcards (Except.ok none) = [] ∧
    generateFlashcards (Except.ok (some { flashcards := none })) = [] ∧
    generateFlashcards (Except.ok (some { flashcards := some [demoCard 1] })) = [demoCard 1] :=
  flashcards_fallback_passthrough [demoCard 1] (strToL "boom")

/-- C8 witness: the amended search behaviour at the empty match list. -/
theorem search_empty_amended_witness :
    semanticSearch (Except.error (strToL "boom")) = [] ∧
    (semanticSearch (Except.ok ([] : List SearchMatch))).length = ([] : List SearchMatch).length ∧
    semanticSearchToolHandler (Except.ok []) = [] :=
  search_empty_amended [] (strToL "boom")

/-- C10 witness: the shallow-merge theorem at a concrete session and chat update. -/
theorem session_update_shallow_merge_witness :
    (applyUpdate demoSession emptyUpdate 9).messages =
      emptyUpdate.messages.getD demoSession.messages ∧
    (applyUpdate demoSession emptyUpdate 9).userStruggles =
      emptyUpdate.userStruggles.getD demoSession.userStruggles ∧
    (applyUpdate demoSession emptyUpdate 9).goal = emptyUpdate.goal.getD demoSession.goal ∧
    (applyUpdate demoSession emptyUpdate 9).lastActivityAt = 9 ∧
    handleUpdate (some demoSession) (chatUpdateBody (strToL "why") demoAssistant 9) 9 =
      (some { demoSession with
                messages := [{ role := strToL "user", content := strToL "why", timestamp := 9 },
                             demoAssistant],
                lastActivityAt := 9 },
       UpdateOutcome.success) :=
  session_update_shallow_merge demoSession emptyUpdate 9 (strToL "why") demoAssistant

end CodeCompass
